import Mathlib

/-!
Verification of the CPU-scheduling simulator in `parta.c`.

The C program keeps an array of process control blocks (`struct pcb`
with `int pid; int burst_left; int wait;`) and runs two schedulers over
it: First-Come-First-Served (`fcfs_run`) and Round-Robin (`rr_run`,
driven by the successor function `rr_next`).  Time advancement is done
by `run_proc`.  We embed the program shallowly: the pcb array becomes a
`List Pcb`, C `int` becomes `Int` (no arithmetic here approaches the
32-bit bound: every operation is addition/subtraction of input values),
`NULL`/failed allocation becomes `Option`, and each C loop becomes a
structurally recursive function whose argument mirrors the loop
counter.
-/

set_option linter.unusedVariables false

/-- One C `struct pcb`: pid, remaining burst, accumulated wait. -/
structure Pcb where
  pid : Int
  burst_left : Int
  wait : Int
deriving Repr, DecidableEq, Inhabited

/-- Array indexing `procs[k]` with an (unused, guard-protected) default. -/
def pcbAt : List Pcb → Nat → Pcb
  | [], _ => default
  | p :: _, 0 => p
  | _ :: ps, k + 1 => pcbAt ps k

/-- The `burst_left` field of `procs[k]`. -/
def burstAt (ps : List Pcb) (k : Nat) : Int :=
  (pcbAt ps k).burst_left

/-- Burst value `bursts[k]` of the input array (default 0 out of range). -/
def intAt : List Int → Nat → Int
  | [], _ => 0
  | b :: _, 0 => b
  | _ :: bs, k + 1 => intAt bs k

/-- Loop body of `init_procs`: `pid = i, burst_left = bursts[i], wait = 0`. -/
def init_go : Nat → List Int → List Pcb
  | _, [] => []
  | i, b :: bs => { pid := (i : Int), burst_left := b, wait := 0 } :: init_go (i + 1) bs

/-- C `init_procs`: `NULL` when `blen <= 0` (or the array is absent),
otherwise the freshly initialised table.  Allocation failure is not
representable in the embedding. -/
def init_procs (bursts : List Int) : Option (List Pcb) :=
  if bursts.length = 0 then none
  else some (init_go 0 bursts)

/-- The effect of one iteration of the two mutation statements of
`run_proc` on the entry at index `i`: at `i = c` the burst decrement
with the defensive clamp at 0; at every other index the wait increment,
guarded by that entry's own `burst_left > 0`.  In the C code the
decrement of `procs[current]` happens before the wait loop, but the
wait loop skips `current` and reads only fields the decrement did not
touch, so a single indexed pass is the same function on the array. -/
def stepPcb (used : Int) (c i : Nat) (p : Pcb) : Pcb :=
  if i = c then
    { p with burst_left := if p.burst_left - used < 0 then 0 else p.burst_left - used }
  else if 0 < p.burst_left then { p with wait := p.wait + used }
  else p

/-- Indexed traversal applying `stepPcb` to every entry, `s` being the
index of the head of `ps` in the full array. -/
def run_proc_go (used : Int) (c : Nat) : Nat → List Pcb → List Pcb
  | _, [] => []
  | s, p :: ps => stepPcb used c s p :: run_proc_go used c (s + 1) ps

/-- C `run_proc(procs, plen, current, amount)` with `plen = procs.length`.
Guards: absent/empty table, out-of-range index or `amount <= 0` are
silent no-ops, as is a current process that is already finished
(`remaining <= 0`).  The C local `remaining` is `burstAt procs
current.toNat` and the local `used` (set to `amount`, then lowered to
`remaining` when `amount > remaining`) is the inlined conditional. -/
def run_proc (procs : List Pcb) (current amount : Int) : List Pcb :=
  if procs.length = 0 ∨ current < 0 ∨ (procs.length : Int) ≤ current ∨ amount ≤ 0 then
    procs
  else if burstAt procs current.toNat ≤ 0 then procs
  else
    run_proc_go
      (if burstAt procs current.toNat < amount then burstAt procs current.toNat else amount)
      current.toNat 0 procs

/-- The `for (i = 0; i < plen; i++)` loop of `fcfs_run`: `m` counts the
remaining iterations, `j` is the loop counter, `t` the running time. -/
def fcfs_go : Nat → Nat → List Pcb → Int → List Pcb × Int
  | 0, _, ps, t => (ps, t)
  | m + 1, j, ps, t =>
    if burstAt ps j ≤ 0 then fcfs_go m (j + 1) ps t
    else fcfs_go m (j + 1) (run_proc ps (j : Int) (burstAt ps j)) (t + burstAt ps j)

/-- C `fcfs_run`: run every process to completion in index order,
returning the mutated table and the total elapsed time. -/
def fcfs_run (procs : List Pcb) : List Pcb × Int :=
  if procs.length = 0 then (procs, 0)
  else fcfs_go procs.length 0 procs 0

/-- Linear search for the least index in `[s, s+k)` satisfying `p`,
mirroring the C pattern `for (...; i < n; i++) if (p(i)) return i;`. -/
def findFirst (p : Nat → Bool) : Nat → Nat → Option Nat
  | _, 0 => none
  | s, k + 1 => if p s then some s else findFirst p (s + 1) k

/-- The `any_remaining` check of `rr_next`. -/
def anyRunnable (procs : List Pcb) : Bool :=
  procs.any (fun p => decide (0 < p.burst_left))

/-- The two `for (i/j = 0; .. < plen; ..)` searches of `rr_next` for the
first index with `burst_left > 0`. -/
def firstRunnable (procs : List Pcb) : Option Nat :=
  findFirst (fun i => decide (0 < burstAt procs i)) 0 procs.length

/-- The cyclic `while (i != current)` scan of `rr_next`.  Starting at
`(cur+1) % n` and stepping by `(i+1) % n`, the loop visits exactly the
positions `(cur+1+j) % n` for `j = 0, 1, ...` and, for `cur < n`, first
returns to `cur` at `j = n-1`; so it examines `j < n-1` in order. -/
def rr_scan (procs : List Pcb) (cur : Nat) : Option Nat :=
  (findFirst (fun j => decide (0 < burstAt procs ((cur + 1 + j) % procs.length)))
      0 (procs.length - 1)).map
    (fun j => (cur + 1 + j) % procs.length)

/-- C `rr_next(current, procs, plen)`: -1 when the table is empty or no
process is runnable; lowest runnable index when `current` is out of
range; otherwise the cyclic scan from `current + 1`, falling back to
`current` itself and then to a linear rescue scan. -/
def rr_next (current : Int) (procs : List Pcb) : Int :=
  if procs.length = 0 then -1
  else if anyRunnable procs = false then -1
  else if current < 0 ∨ (procs.length : Int) ≤ current then
    match firstRunnable procs with
    | some i => (i : Int)
    | none => -1
  else
    match rr_scan procs current.toNat with
    | some i => (i : Int)
    | none =>
      if 0 < burstAt procs current.toNat then current
      else
        match firstRunnable procs with
        | some j => (j : Int)
        | none => -1

/-- Total remaining positive burst, the termination measure of the RR
loop (negative `burst_left` counts 0, as it is never selected). -/
def sumPos : List Pcb → Nat
  | [] => 0
  | p :: ps => p.burst_left.toNat + sumPos ps

/-- Signed sum of all `burst_left` fields. -/
def sumBurst : List Pcb → Int
  | [] => 0
  | p :: ps => p.burst_left + sumBurst ps

/-- The `while (1)` loop of `rr_run`, with explicit fuel.  The C locals
`current` (reassigned from `rr_next`), `remaining` and `amount` are
inlined.  One unit of fuel is spent per iteration; `rr_loop_fuel_irrel`
below shows that any fuel of at least `sumPos procs + 1` gives the same
result, so the fuel is an artifact of totality and not of the modelled
program. -/
def rr_loop (quantum : Int) : Nat → List Pcb → Int → Int → List Pcb × Int
  | 0, procs, _, time => (procs, time)
  | fuel + 1, procs, current, time =>
    if rr_next current procs = -1 then (procs, time)
    else if burstAt procs (rr_next current procs).toNat ≤ 0 then
      rr_loop quantum fuel procs (rr_next current procs) time
    else
      rr_loop quantum fuel
        (run_proc procs (rr_next current procs)
          (if burstAt procs (rr_next current procs).toNat < quantum then
            burstAt procs (rr_next current procs).toNat
          else quantum))
        (rr_next current procs)
        (time +
          (if burstAt procs (rr_next current procs).toNat < quantum then
            burstAt procs (rr_next current procs).toNat
          else quantum))

/-- C `rr_run(procs, plen, quantum)`: guard, then the loop starting from
`current = -1` and `time = 0`. -/
def rr_run (procs : List Pcb) (quantum : Int) : List Pcb × Int :=
  if procs.length = 0 ∨ quantum ≤ 0 then (procs, 0)
  else rr_loop quantum (sumPos procs + 1) procs (-1) 0

/-- Cyclic forward distance from position `a` to position `b` on a ring
of size `n` (spec-side notion used to state the RR tie-break rule). -/
def cdist (n a b : Nat) : Nat :=
  (b + n - a % n) % n

/-- Sum of the positive entries among the first `m` bursts. -/
def prefixPosSum (bursts : List Int) : Nat → Int
  | 0 => 0
  | m + 1 => prefixPosSum bursts m + (if 0 < intAt bursts m then intAt bursts m else 0)

/-- Signed sum of a burst list. -/
def sumInt : List Int → Int
  | [] => 0
  | b :: bs => b + sumInt bs

/-- The pcb of process `k` after the FCFS loop has handled indices
`< j`: a positive burst already handled is exhausted, waits have
accumulated the positive bursts before `min k j`. -/
def mkStage (bursts : List Int) (j k : Nat) : Pcb :=
  { pid := (k : Int),
    burst_left := if k < j ∧ 0 < intAt bursts k then 0 else intAt bursts k,
    wait := if 0 < intAt bursts k then prefixPosSum bursts (min k j) else 0 }

/-! ### Basic indexing lemmas -/

@[simp] lemma pcbAt_nil (k : Nat) : pcbAt [] k = default := rfl

@[simp] lemma pcbAt_cons_zero (p : Pcb) (ps : List Pcb) : pcbAt (p :: ps) 0 = p := rfl

@[simp] lemma pcbAt_cons_succ (p : Pcb) (ps : List Pcb) (k : Nat) :
    pcbAt (p :: ps) (k + 1) = pcbAt ps k := rfl

lemma pcbAt_out_of_range : ∀ (ps : List Pcb) (k : Nat), ps.length ≤ k → pcbAt ps k = default := by
  intro ps
  induction ps with
  | nil => intro k _; rfl
  | cons p ps ih =>
    intro k hk
    cases k with
    | zero => simp at hk
    | succ k => simpa using ih k (by simpa using hk)

@[simp] lemma default_burst : (default : Pcb).burst_left = 0 := rfl

lemma burstAt_out_of_range (ps : List Pcb) (k : Nat) (hk : ps.length ≤ k) :
    burstAt ps k = 0 := by
  unfold burstAt
  rw [pcbAt_out_of_range ps k hk]
  rfl

lemma mem_iff_pcbAt (ps : List Pcb) (p : Pcb) :
    p ∈ ps ↔ ∃ k, k < ps.length ∧ pcbAt ps k = p := by
  induction ps with
  | nil => simp
  | cons q ps ih =>
    simp only [List.mem_cons, List.length_cons, ih]
    constructor
    · rintro (rfl | ⟨k, hk, hp⟩)
      · exact ⟨0, Nat.succ_pos _, rfl⟩
      · exact ⟨k + 1, Nat.succ_lt_succ hk, hp⟩
    · rintro ⟨k, hk, hp⟩
      cases k with
      | zero => exact Or.inl hp.symm
      | succ k => exact Or.inr ⟨k, Nat.lt_of_succ_lt_succ hk, hp⟩

/-! ### Pointwise behaviour of the `run_proc` mutation pass -/

lemma stepPcb_burst_other (used : Int) (c i : Nat) (p : Pcb) (h : i ≠ c) :
    (stepPcb used c i p).burst_left = p.burst_left := by
  unfold stepPcb
  rw [if_neg h]
  split_ifs <;> rfl

lemma stepPcb_nonpos (used : Int) (c i : Nat) (p : Pcb) (h : i ≠ c)
    (hb : p.burst_left ≤ 0) : stepPcb used c i p = p := by
  unfold stepPcb
  rw [if_neg h, if_neg (by omega)]

lemma run_proc_go_length (used : Int) (c : Nat) :
    ∀ (s : Nat) (ps : List Pcb), (run_proc_go used c s ps).length = ps.length := by
  intro s ps
  induction ps generalizing s with
  | nil => rfl
  | cons p ps ih => simp [run_proc_go, ih]

lemma pcbAt_run_proc_go (used : Int) (c : Nat) :
    ∀ (ps : List Pcb) (s k : Nat),
      pcbAt (run_proc_go used c s ps) k =
        if k < ps.length then stepPcb used c (s + k) (pcbAt ps k) else default := by
  intro ps
  induction ps with
  | nil => intro s k; simp [run_proc_go]
  | cons p ps ih =>
    intro s k
    cases k with
    | zero => simp [run_proc_go]
    | succ k =>
      have h1 : run_proc_go used c s (p :: ps) =
          stepPcb used c s p :: run_proc_go used c (s + 1) ps := rfl
      rw [h1, pcbAt_cons_succ, ih (s + 1) k]
      have h2 : s + 1 + k = s + (k + 1) := by omega
      rw [h2]
      simp [Nat.succ_lt_succ_iff]

/-! ### Sum lemmas for the mutation pass -/

lemma sumBurst_run_proc_go_of_gt (used : Int) (c : Nat) :
    ∀ (ps : List Pcb) (s : Nat), c < s →
      sumBurst (run_proc_go used c s ps) = sumBurst ps := by
  intro ps
  induction ps with
  | nil => intro s _; rfl
  | cons p ps ih =>
    intro s hs
    have h1 : run_proc_go used c s (p :: ps) =
        stepPcb used c s p :: run_proc_go used c (s + 1) ps := rfl
    rw [h1]
    show (stepPcb used c s p).burst_left + sumBurst (run_proc_go used c (s + 1) ps) =
      p.burst_left + sumBurst ps
    rw [stepPcb_burst_other used c s p (by omega), ih (s + 1) (by omega)]

lemma sumBurst_run_proc_go (used : Int) (c : Nat) :
    ∀ (ps : List Pcb) (s : Nat), s ≤ c → c - s < ps.length →
      used ≤ (pcbAt ps (c - s)).burst_left →
      sumBurst (run_proc_go used c s ps) = sumBurst ps - used := by
  intro ps
  induction ps with
  | nil => intro s _ h2 _; simp at h2
  | cons p ps ih =>
    intro s h1 h2 h3
    simp only [List.length_cons] at h2
    have hcons : run_proc_go used c s (p :: ps) =
        stepPcb used c s p :: run_proc_go used c (s + 1) ps := rfl
    rcases Nat.eq_or_lt_of_le h1 with heq | hlt
    · -- the head is the current process
      have hcs : c - s = 0 := by omega
      rw [hcs] at h3
      simp only [pcbAt_cons_zero] at h3
      rw [hcons]
      show (stepPcb used c s p).burst_left + sumBurst (run_proc_go used c (s + 1) ps) =
        (p.burst_left + sumBurst ps) - used
      unfold stepPcb
      rw [if_pos heq]
      show (if p.burst_left - used < 0 then 0 else p.burst_left - used) +
        sumBurst (run_proc_go used c (s + 1) ps) = (p.burst_left + sumBurst ps) - used
      rw [sumBurst_run_proc_go_of_gt used c ps (s + 1) (by omega)]
      split_ifs <;> omega
    · -- the current process is in the tail
      have hcs : c - s = (c - (s + 1)) + 1 := by omega
      rw [hcs] at h3
      simp only [pcbAt_cons_succ] at h3
      rw [hcons]
      show (stepPcb used c s p).burst_left + sumBurst (run_proc_go used c (s + 1) ps) =
        (p.burst_left + sumBurst ps) - used
      rw [stepPcb_burst_other used c s p (by omega),
        ih (s + 1) (by omega) (by omega) h3]
      ring

lemma sumPos_run_proc_go_of_gt (used : Int) (c : Nat) :
    ∀ (ps : List Pcb) (s : Nat), c < s →
      sumPos (run_proc_go used c s ps) = sumPos ps := by
  intro ps
  induction ps with
  | nil => intro s _; rfl
  | cons p ps ih =>
    intro s hs
    have h1 : run_proc_go used c s (p :: ps) =
        stepPcb used c s p :: run_proc_go used c (s + 1) ps := rfl
    rw [h1]
    show (stepPcb used c s p).burst_left.toNat + sumPos (run_proc_go used c (s + 1) ps) =
      p.burst_left.toNat + sumPos ps
    rw [stepPcb_burst_other used c s p (by omega), ih (s + 1) (by omega)]

lemma sumPos_run_proc_go (used : Int) (c : Nat) (hu : 0 ≤ used) :
    ∀ (ps : List Pcb) (s : Nat), s ≤ c → c - s < ps.length →
      used ≤ (pcbAt ps (c - s)).burst_left →
      sumPos (run_proc_go used c s ps) + used.toNat = sumPos ps := by
  intro ps
  induction ps with
  | nil => intro s _ h2 _; simp at h2
  | cons p ps ih =>
    intro s h1 h2 h3
    simp only [List.length_cons] at h2
    have hcons : run_proc_go used c s (p :: ps) =
        stepPcb used c s p :: run_proc_go used c (s + 1) ps := rfl
    rcases Nat.eq_or_lt_of_le h1 with heq | hlt
    · have hcs : c - s = 0 := by omega
      rw [hcs] at h3
      simp only [pcbAt_cons_zero] at h3
      rw [hcons]
      show ((stepPcb used c s p).burst_left.toNat + sumPos (run_proc_go used c (s + 1) ps)) +
          used.toNat = p.burst_left.toNat + sumPos ps
      unfold stepPcb
      rw [if_pos heq]
      show ((if p.burst_left - used < 0 then 0 else p.burst_left - used).toNat +
          sumPos (run_proc_go used c (s + 1) ps)) + used.toNat =
        p.burst_left.toNat + sumPos ps
      rw [sumPos_run_proc_go_of_gt used c ps (s + 1) (by omega)]
      split_ifs <;> omega
    · have hcs : c - s = (c - (s + 1)) + 1 := by omega
      rw [hcs] at h3
      simp only [pcbAt_cons_succ] at h3
      rw [hcons]
      show ((stepPcb used c s p).burst_left.toNat + sumPos (run_proc_go used c (s + 1) ps)) +
          used.toNat = p.burst_left.toNat + sumPos ps
      rw [stepPcb_burst_other used c s p (by omega)]
      have := ih (s + 1) (by omega) (by omega) h3
      omega

/-! ### Behaviour of `run_proc` -/

lemma run_proc_noop (procs : List Pcb) (current amount : Int)
    (h : procs.length = 0 ∨ current < 0 ∨ (procs.length : Int) ≤ current ∨ amount ≤ 0) :
    run_proc procs current amount = procs := by
  unfold run_proc
  rw [if_pos h]

lemma run_proc_noop_finished (procs : List Pcb) (current amount : Int)
    (h : burstAt procs current.toNat ≤ 0) :
    run_proc procs current amount = procs := by
  unfold run_proc
  by_cases h1 : procs.length = 0 ∨ current < 0 ∨ (procs.length : Int) ≤ current ∨ amount ≤ 0
  · rw [if_pos h1]
  · rw [if_neg h1, if_pos h]

lemma run_proc_length (procs : List Pcb) (current amount : Int) :
    (run_proc procs current amount).length = procs.length := by
  unfold run_proc
  split_ifs <;> simp [run_proc_go_length]

lemma if_min (a b : Int) : (if a < b then a else b) = min b a := by
  rcases lt_or_ge a b with h | h
  · rw [if_pos h, min_eq_right h.le]
  · rw [if_neg (not_lt.mpr h), min_eq_left h]

lemma pcbAt_run_proc (procs : List Pcb) (current amount : Int)
    (hc0 : 0 ≤ current) (hcl : current < (procs.length : Int))
    (hb : 0 < burstAt procs current.toNat) (ha : 0 < amount) (k : Nat) :
    pcbAt (run_proc procs current amount) k =
      if k < procs.length then
        stepPcb (min amount (burstAt procs current.toNat)) current.toNat k (pcbAt procs k)
      else default := by
  unfold run_proc
  rw [if_neg (by omega), if_neg (by omega), if_min,
    pcbAt_run_proc_go, Nat.zero_add]

lemma stepPcb_burst_nonneg (used : Int) (c i : Nat) (p : Pcb) (h : 0 ≤ p.burst_left) :
    0 ≤ (stepPcb used c i p).burst_left := by
  unfold stepPcb
  by_cases h1 : i = c
  · rw [if_pos h1]
    show 0 ≤ (if p.burst_left - used < 0 then 0 else p.burst_left - used)
    split_ifs <;> omega
  · rw [if_neg h1]
    by_cases h2 : 0 < p.burst_left
    · rw [if_pos h2]
      exact h
    · rw [if_neg h2]
      exact h

lemma run_proc_preserves_nonpos (procs : List Pcb) (current amount : Int) (k : Nat)
    (hk : burstAt procs k ≤ 0) :
    pcbAt (run_proc procs current amount) k = pcbAt procs k := by
  unfold run_proc
  by_cases h1 : procs.length = 0 ∨ current < 0 ∨ (procs.length : Int) ≤ current ∨ amount ≤ 0
  · rw [if_pos h1]
  · rw [if_neg h1]
    by_cases h2 : burstAt procs current.toNat ≤ 0
    · rw [if_pos h2]
    · rw [if_neg h2, pcbAt_run_proc_go, Nat.zero_add]
      by_cases h3 : k < procs.length
      · rw [if_pos h3]
        refine stepPcb_nonpos _ _ _ _ ?_ hk
        intro hkc
        rw [hkc] at hk
        omega
      · rw [if_neg h3]
        exact (pcbAt_out_of_range procs k (by omega)).symm

lemma burstAt_run_proc_preserves_nonpos (procs : List Pcb) (current amount : Int) (k : Nat)
    (hk : burstAt procs k ≤ 0) :
    burstAt (run_proc procs current amount) k ≤ 0 := by
  unfold burstAt
  rw [run_proc_preserves_nonpos procs current amount k hk]
  exact hk

lemma run_proc_preserves_nonneg (procs : List Pcb) (current amount : Int) (k : Nat)
    (hk : 0 ≤ burstAt procs k) :
    0 ≤ burstAt (run_proc procs current amount) k := by
  unfold run_proc
  by_cases h1 : procs.length = 0 ∨ current < 0 ∨ (procs.length : Int) ≤ current ∨ amount ≤ 0
  · rw [if_pos h1]
    exact hk
  · rw [if_neg h1]
    by_cases h2 : burstAt procs current.toNat ≤ 0
    · rw [if_pos h2]
      exact hk
    · rw [if_neg h2]
      unfold burstAt
      rw [pcbAt_run_proc_go, Nat.zero_add]
      by_cases h3 : k < procs.length
      · rw [if_pos h3]
        exact stepPcb_burst_nonneg _ _ _ _ hk
      · rw [if_neg h3]
        simp

lemma sumBurst_run_proc (procs : List Pcb) (current amount : Int)
    (hc0 : 0 ≤ current) (hcl : current < (procs.length : Int))
    (hb : 0 < burstAt procs current.toNat) (ha : 0 < amount) :
    sumBurst (run_proc procs current amount) =
      sumBurst procs - min amount (burstAt procs current.toNat) := by
  unfold run_proc
  rw [if_neg (by omega), if_neg (by omega), if_min]
  apply sumBurst_run_proc_go
  · omega
  · omega
  · rw [Nat.sub_zero]
    exact min_le_right _ _

lemma sumPos_run_proc (procs : List Pcb) (current amount : Int)
    (hc0 : 0 ≤ current) (hcl : current < (procs.length : Int))
    (hb : 0 < burstAt procs current.toNat) (ha : 0 < amount) :
    sumPos (run_proc procs current amount) +
      (min amount (burstAt procs current.toNat)).toNat = sumPos procs := by
  unfold run_proc
  rw [if_neg (by omega), if_neg (by omega), if_min]
  apply sumPos_run_proc_go
  · exact le_min ha.le hb.le
  · omega
  · omega
  · rw [Nat.sub_zero]
    exact min_le_right _ _

/-! ### The linear search -/

lemma findFirst_eq_some (p : Nat → Bool) :
    ∀ (k s j : Nat), findFirst p s k = some j →
      p j = true ∧ s ≤ j ∧ j < s + k ∧ ∀ m, s ≤ m → m < j → p m = false := by
  intro k
  induction k with
  | zero => intro s j h; simp [findFirst] at h
  | succ k ih =>
    intro s j h
    unfold findFirst at h
    split_ifs at h with hp
    · cases h
      exact ⟨hp, le_refl _, by omega, fun m h1 h2 => absurd h1 (by omega)⟩
    · obtain ⟨h1, h2, h3, h4⟩ := ih (s + 1) j h
      refine ⟨h1, by omega, by omega, fun m hm1 hm2 => ?_⟩
      rcases Nat.eq_or_lt_of_le hm1 with heq | hlt
      · rw [← heq]
        exact Bool.eq_false_iff.mpr hp
      · exact h4 m (by omega) hm2

lemma findFirst_eq_none (p : Nat → Bool) :
    ∀ (k s : Nat), findFirst p s k = none → ∀ m, s ≤ m → m < s + k → p m = false := by
  intro k
  induction k with
  | zero => intro s _ m h1 h2; omega
  | succ k ih =>
    intro s h m h1 h2
    unfold findFirst at h
    by_cases hp : p s = true
    · rw [if_pos hp] at h
      exact Option.noConfusion h
    · rw [if_neg hp] at h
      rcases Nat.eq_or_lt_of_le h1 with heq | hlt
      · rw [← heq]
        exact Bool.eq_false_iff.mpr hp
      · exact ih (s + 1) h m (by omega) (by omega)

lemma findFirst_ne_none (p : Nat → Bool) (k s m : Nat)
    (h1 : s ≤ m) (h2 : m < s + k) (h3 : p m = true) : findFirst p s k ≠ none := by
  intro h
  have := findFirst_eq_none p k s h m h1 h2
  rw [h3] at this
  cases this

/-! ### The runnable checks of `rr_next` -/

lemma anyRunnable_iff (ps : List Pcb) :
    anyRunnable ps = true ↔ ∃ k, k < ps.length ∧ 0 < burstAt ps k := by
  unfold anyRunnable
  rw [List.any_eq_true]
  constructor
  · rintro ⟨p, hp, hb⟩
    obtain ⟨k, hk, hpk⟩ := (mem_iff_pcbAt ps p).mp hp
    refine ⟨k, hk, ?_⟩
    unfold burstAt
    rw [hpk]
    exact of_decide_eq_true hb
  · rintro ⟨k, hk, hb⟩
    refine ⟨pcbAt ps k, (mem_iff_pcbAt ps _).mpr ⟨k, hk, rfl⟩, decide_eq_true hb⟩

lemma anyRunnable_eq_false_iff (ps : List Pcb) :
    anyRunnable ps = false ↔ ∀ k, burstAt ps k ≤ 0 := by
  rw [← Bool.not_eq_true, anyRunnable_iff]
  push_neg
  constructor
  · intro h k
    by_cases hk : k < ps.length
    · exact h k hk
    · rw [burstAt_out_of_range ps k (by omega)]
  · intro h k _
    exact h k

lemma firstRunnable_some (ps : List Pcb) (i : Nat) (h : firstRunnable ps = some i) :
    i < ps.length ∧ 0 < burstAt ps i ∧ ∀ m, m < i → burstAt ps m ≤ 0 := by
  obtain ⟨h1, h2, h3, h4⟩ := findFirst_eq_some _ _ _ _ h
  refine ⟨by omega, of_decide_eq_true h1, fun m hm => ?_⟩
  have := h4 m (Nat.zero_le m) hm
  simpa using this

lemma firstRunnable_ne_none (ps : List Pcb) (k : Nat)
    (hk : k < ps.length) (hb : 0 < burstAt ps k) : firstRunnable ps ≠ none := by
  exact findFirst_ne_none _ _ _ k (Nat.zero_le k) (by omega) (decide_eq_true hb)

/-! ### Cyclic distance arithmetic for the RR scan -/

lemma cdist_lt (n a b : Nat) (hn : 0 < n) : cdist n a b < n :=
  Nat.mod_lt _ hn

lemma cdist_add (n a j : Nat) (hj : j < n) : cdist n a ((a + j) % n) = j := by
  have hn : 0 < n := by omega
  have hr : a % n < n := Nat.mod_lt _ hn
  have h1 : (a + j) % n = (a % n + j) % n := by
    conv_lhs => rw [Nat.add_mod]
    rw [Nat.mod_eq_of_lt hj]
  unfold cdist
  rw [h1]
  rcases lt_or_ge (a % n + j) n with h | h
  · rw [Nat.mod_eq_of_lt h]
    have h2 : a % n + j + n - a % n = j + n := by omega
    rw [h2, Nat.add_mod_right, Nat.mod_eq_of_lt hj]
  · have h2 : (a % n + j) % n = a % n + j - n := by
      rw [Nat.mod_eq_sub_mod h, Nat.mod_eq_of_lt (by omega)]
    rw [h2]
    have h3 : a % n + j - n + n - a % n = j := by omega
    rw [h3, Nat.mod_eq_of_lt hj]

lemma add_cdist (n a b : Nat) (hb : b < n) : (a + cdist n a b) % n = b := by
  have hn : 0 < n := by omega
  have hr : a % n < n := Nat.mod_lt _ hn
  unfold cdist
  rcases le_or_lt (a % n) b with h | h
  · have h1 : (b + n - a % n) % n = b - a % n := by
      have h2 : b + n - a % n = (b - a % n) + n := by omega
      rw [h2, Nat.add_mod_right, Nat.mod_eq_of_lt (by omega)]
    rw [h1]
    conv_lhs => rw [Nat.add_mod]
    rw [Nat.mod_eq_of_lt (show b - a % n < n by omega)]
    have h3 : a % n + (b - a % n) = b := by omega
    rw [h3, Nat.mod_eq_of_lt hb]
  · have h1 : (b + n - a % n) % n = b + n - a % n :=
      Nat.mod_eq_of_lt (by omega)
    rw [h1]
    conv_lhs => rw [Nat.add_mod]
    rw [Nat.mod_eq_of_lt (show b + n - a % n < n by omega)]
    have h3 : a % n + (b + n - a % n) = b + n := by omega
    rw [h3, Nat.add_mod_right, Nat.mod_eq_of_lt hb]

lemma wrap_back (n cur : Nat) (h : cur < n) : (cur + 1 + (n - 1)) % n = cur := by
  have h1 : cur + 1 + (n - 1) = cur + n := by omega
  rw [h1, Nat.add_mod_right, Nat.mod_eq_of_lt h]

lemma cdist_self_pred (n cur : Nat) (h : cur < n) : cdist n (cur + 1) cur = n - 1 := by
  have h2 := cdist_add n (cur + 1) (n - 1) (by omega)
  rw [wrap_back n cur h] at h2
  exact h2

lemma cdist_ne_pred (n cur i : Nat) (hc : cur < n) (hi : i < n) (hne : i ≠ cur) :
    cdist n (cur + 1) i ≠ n - 1 := by
  intro h
  have h1 := add_cdist n (cur + 1) i hi
  rw [h, wrap_back n cur hc] at h1
  exact hne h1.symm

/-! ### The cyclic scan of `rr_next` -/

lemma rr_scan_some (ps : List Pcb) (cur i : Nat) (h : rr_scan ps cur = some i) :
    ∃ j, j < ps.length - 1 ∧ i = (cur + 1 + j) % ps.length ∧ 0 < burstAt ps i ∧
      ∀ m, m < j → burstAt ps ((cur + 1 + m) % ps.length) ≤ 0 := by
  unfold rr_scan at h
  cases hf : findFirst (fun j => decide (0 < burstAt ps ((cur + 1 + j) % ps.length)))
      0 (ps.length - 1) with
  | none => rw [hf] at h; cases h
  | some j =>
    rw [hf] at h
    have hj : i = (cur + 1 + j) % ps.length := (Option.some.injEq _ _).mp h.symm
    obtain ⟨h1, h2, h3, h4⟩ := findFirst_eq_some _ _ _ _ hf
    refine ⟨j, by omega, hj, ?_, fun m hm => ?_⟩
    · rw [hj]
      exact of_decide_eq_true h1
    · have := h4 m (Nat.zero_le m) hm
      simpa using this

lemma rr_scan_none (ps : List Pcb) (cur : Nat) (h : rr_scan ps cur = none) :
    ∀ j, j < ps.length - 1 → burstAt ps ((cur + 1 + j) % ps.length) ≤ 0 := by
  intro j hj
  unfold rr_scan at h
  cases hf : findFirst (fun j => decide (0 < burstAt ps ((cur + 1 + j) % ps.length)))
      0 (ps.length - 1) with
  | none =>
    have := findFirst_eq_none _ _ _ hf j (Nat.zero_le j) (by omega)
    simpa using this
  | some m => rw [hf] at h; cases h

lemma rr_scan_ne_none (ps : List Pcb) (cur : Nat) (hcur : cur < ps.length)
    (i : Nat) (hi : i < ps.length) (hne : i ≠ cur) (hb : 0 < burstAt ps i) :
    rr_scan ps cur ≠ none := by
  intro h
  have hn : 0 < ps.length := by omega
  have hd : cdist ps.length (cur + 1) i < ps.length := cdist_lt _ _ _ hn
  have hdne : cdist ps.length (cur + 1) i ≠ ps.length - 1 :=
    cdist_ne_pred ps.length cur i hcur hi hne
  have hpos : (cur + 1 + cdist ps.length (cur + 1) i) % ps.length = i :=
    add_cdist ps.length (cur + 1) i hi
  have := rr_scan_none ps cur h (cdist ps.length (cur + 1) i) (by omega)
  rw [hpos] at this
  omega

/-! ### Characterising `rr_next` -/

@[simp] lemma burstAt_nil (k : Nat) : burstAt [] k = 0 := rfl

@[simp] lemma burstAt_cons_zero (p : Pcb) (ps : List Pcb) :
    burstAt (p :: ps) 0 = p.burst_left := rfl

@[simp] lemma burstAt_cons_succ (p : Pcb) (ps : List Pcb) (k : Nat) :
    burstAt (p :: ps) (k + 1) = burstAt ps k := rfl

lemma rr_next_eq_neg_one_iff (cur : Int) (ps : List Pcb) :
    rr_next cur ps = -1 ↔ ∀ k, burstAt ps k ≤ 0 := by
  unfold rr_next
  by_cases h0 : ps.length = 0
  · rw [if_pos h0]
    constructor
    · intro _ k
      rw [burstAt_out_of_range ps k (by omega)]
    · intro _
      rfl
  · rw [if_neg h0]
    by_cases h1 : anyRunnable ps = false
    · rw [if_pos h1]
      exact ⟨fun _ => (anyRunnable_eq_false_iff ps).mp h1, fun _ => rfl⟩
    · rw [if_neg h1]
      have hany : anyRunnable ps = true := by
        cases hb : anyRunnable ps
        · exact absurd hb h1
        · rfl
      obtain ⟨k0, hk0, hb0⟩ := (anyRunnable_iff ps).mp hany
      constructor
      · intro hcontra
        exfalso
        by_cases h2 : cur < 0 ∨ (ps.length : Int) ≤ cur
        · rw [if_pos h2] at hcontra
          cases hfr : firstRunnable ps with
          | none => exact firstRunnable_ne_none ps k0 hk0 hb0 hfr
          | some i =>
            simp only [hfr] at hcontra
            omega
        · rw [if_neg h2] at hcontra
          cases hsc : rr_scan ps cur.toNat with
          | some i =>
            simp only [hsc] at hcontra
            omega
          | none =>
            simp only [hsc] at hcontra
            by_cases h3 : 0 < burstAt ps cur.toNat
            · rw [if_pos h3] at hcontra
              omega
            · rw [if_neg h3] at hcontra
              cases hfr : firstRunnable ps with
              | none => exact firstRunnable_ne_none ps k0 hk0 hb0 hfr
              | some j =>
                simp only [hfr] at hcontra
                omega
      · intro hall
        exact absurd (hall k0) (by omega)

lemma rr_next_spec_aux (cur : Int) (ps : List Pcb) (c : Int)
    (hc : rr_next cur ps = c) (hne : c ≠ -1) :
    0 ≤ c ∧ c.toNat < ps.length ∧ 0 < burstAt ps c.toNat := by
  unfold rr_next at hc
  by_cases h0 : ps.length = 0
  · rw [if_pos h0] at hc
    exact absurd hc.symm hne
  · rw [if_neg h0] at hc
    by_cases h1 : anyRunnable ps = false
    · rw [if_pos h1] at hc
      exact absurd hc.symm hne
    · rw [if_neg h1] at hc
      by_cases h2 : cur < 0 ∨ (ps.length : Int) ≤ cur
      · rw [if_pos h2] at hc
        cases hfr : firstRunnable ps with
        | none =>
          simp only [hfr] at hc
          exact absurd hc.symm hne
        | some i =>
          simp only [hfr] at hc
          obtain ⟨hi1, hi2, _⟩ := firstRunnable_some ps i hfr
          have hcn : c.toNat = i := by omega
          refine ⟨by omega, by omega, ?_⟩
          rw [hcn]
          exact hi2
      · rw [if_neg h2] at hc
        cases hsc : rr_scan ps cur.toNat with
        | some i =>
          simp only [hsc] at hc
          obtain ⟨j, hj1, hj2, hj3, _⟩ := rr_scan_some ps cur.toNat i hsc
          have hin : i < ps.length := by
            rw [hj2]
            exact Nat.mod_lt _ (by omega)
          have hcn : c.toNat = i := by omega
          refine ⟨by omega, by omega, ?_⟩
          rw [hcn]
          exact hj3
        | none =>
          simp only [hsc] at hc
          by_cases h3 : 0 < burstAt ps cur.toNat
          · rw [if_pos h3] at hc
            have hcn : c.toNat = cur.toNat := by omega
            refine ⟨by omega, by omega, ?_⟩
            rw [hcn]
            exact h3
          · rw [if_neg h3] at hc
            cases hfr : firstRunnable ps with
            | none =>
              simp only [hfr] at hc
              exact absurd hc.symm hne
            | some j =>
              simp only [hfr] at hc
              obtain ⟨hj1, hj2, _⟩ := firstRunnable_some ps j hfr
              have hcn : c.toNat = j := by omega
              refine ⟨by omega, by omega, ?_⟩
              rw [hcn]
              exact hj2

lemma sumPos_eq_zero_iff (ps : List Pcb) :
    sumPos ps = 0 ↔ ∀ k, burstAt ps k ≤ 0 := by
  induction ps with
  | nil =>
    constructor
    · intro _ k
      simp
    · intro _
      rfl
  | cons p ps ih =>
    show p.burst_left.toNat + sumPos ps = 0 ↔ _
    constructor
    · intro h k
      cases k with
      | zero =>
        show p.burst_left ≤ 0
        omega
      | succ k =>
        rw [burstAt_cons_succ]
        exact ih.mp (by omega) k
    · intro h
      have h0 : p.burst_left ≤ 0 := h 0
      have h1 : sumPos ps = 0 := ih.mpr (fun k => h (k + 1))
      omega

/-! ### The Round-Robin driver loop -/

lemma rr_loop_step (q : Int) (fuel : Nat) (procs : List Pcb) (cur t : Int)
    (hne : rr_next cur procs ≠ -1)
    (hb : 0 < burstAt procs (rr_next cur procs).toNat) :
    rr_loop q (fuel + 1) procs cur t =
      rr_loop q fuel
        (run_proc procs (rr_next cur procs)
          (min q (burstAt procs (rr_next cur procs).toNat)))
        (rr_next cur procs)
        (t + min q (burstAt procs (rr_next cur procs).toNat)) := by
  conv_lhs => unfold rr_loop
  rw [if_neg hne, if_neg (by omega), if_min]

lemma rr_loop_spec (q : Int) (hq : 0 < q) :
    ∀ (fuel : Nat) (procs : List Pcb) (cur t : Int),
      sumPos procs + 1 ≤ fuel →
      (rr_loop q fuel procs cur t).1.length = procs.length ∧
      (∀ k, burstAt (rr_loop q fuel procs cur t).1 k ≤ 0) ∧
      (∀ k, burstAt procs k ≤ 0 →
        pcbAt (rr_loop q fuel procs cur t).1 k = pcbAt procs k) ∧
      (∀ k, 0 ≤ burstAt procs k → 0 ≤ burstAt (rr_loop q fuel procs cur t).1 k) ∧
      (rr_loop q fuel procs cur t).2 = t + (sumPos procs : Int) := by
  intro fuel
  induction fuel with
  | zero =>
    intro procs cur t hf
    omega
  | succ fuel ih =>
    intro procs cur t hf
    by_cases hend : rr_next cur procs = -1
    · have hall : ∀ k, burstAt procs k ≤ 0 := (rr_next_eq_neg_one_iff cur procs).mp hend
      have hz : sumPos procs = 0 := (sumPos_eq_zero_iff procs).mpr hall
      have hred : rr_loop q (fuel + 1) procs cur t = (procs, t) := by
        unfold rr_loop
        rw [if_pos hend]
      rw [hred]
      refine ⟨rfl, hall, fun k _ => rfl, fun k hk => hk, ?_⟩
      rw [hz]
      simp
    · obtain ⟨hge, hlt, hb⟩ := rr_next_spec_aux cur procs _ rfl hend
      have hamt1 : 0 < min q (burstAt procs (rr_next cur procs).toNat) := lt_min hq hb
      have hamt2 : min q (burstAt procs (rr_next cur procs).toNat) ≤
          burstAt procs (rr_next cur procs).toNat := min_le_right _ _
      have hsum := sumPos_run_proc procs (rr_next cur procs)
        (min q (burstAt procs (rr_next cur procs).toNat)) hge (by omega) hb hamt1
      rw [min_eq_left hamt2] at hsum
      have hlen := run_proc_length procs (rr_next cur procs)
        (min q (burstAt procs (rr_next cur procs).toNat))
      have hfuel2 : sumPos (run_proc procs (rr_next cur procs)
          (min q (burstAt procs (rr_next cur procs).toNat))) + 1 ≤ fuel := by omega
      obtain ⟨ih1, ih2, ih3, ih4, ih5⟩ := ih
        (run_proc procs (rr_next cur procs)
          (min q (burstAt procs (rr_next cur procs).toNat)))
        (rr_next cur procs)
        (t + min q (burstAt procs (rr_next cur procs).toNat)) hfuel2
      rw [rr_loop_step q fuel procs cur t hend hb]
      refine ⟨by rw [ih1, hlen], ih2, ?_, ?_, ?_⟩
      · intro k hk
        have hpre := run_proc_preserves_nonpos procs (rr_next cur procs)
          (min q (burstAt procs (rr_next cur procs).toNat)) k hk
        have hk2 := burstAt_run_proc_preserves_nonpos procs (rr_next cur procs)
          (min q (burstAt procs (rr_next cur procs).toNat)) k hk
        rw [ih3 k hk2, hpre]
      · intro k hk
        exact ih4 k (run_proc_preserves_nonneg procs _ _ k hk)
      · rw [ih5]
        omega

lemma rr_loop_exit (q : Int) (fuel : Nat) (procs : List Pcb) (cur t : Int)
    (hend : rr_next cur procs = -1) :
    rr_loop q (fuel + 1) procs cur t = (procs, t) := by
  conv_lhs => unfold rr_loop
  rw [if_pos hend]

lemma rr_loop_fuel_irrel (q : Int) (hq : 0 < q) :
    ∀ (n : Nat) (procs : List Pcb), sumPos procs ≤ n →
      ∀ (fuel : Nat) (cur t : Int), sumPos procs + 1 ≤ fuel →
        rr_loop q fuel procs cur t = rr_loop q (sumPos procs + 1) procs cur t := by
  intro n
  induction n with
  | zero =>
    intro procs hn fuel cur t hfuel
    have hz : sumPos procs = 0 := by omega
    have hend : rr_next cur procs = -1 :=
      (rr_next_eq_neg_one_iff cur procs).mpr ((sumPos_eq_zero_iff procs).mp hz)
    cases fuel with
    | zero => omega
    | succ fuel =>
      rw [rr_loop_exit q fuel procs cur t hend,
        rr_loop_exit q (sumPos procs) procs cur t hend]
  | succ n ihn =>
    intro procs hn fuel cur t hfuel
    by_cases hend : rr_next cur procs = -1
    · cases fuel with
      | zero => omega
      | succ fuel =>
        rw [rr_loop_exit q fuel procs cur t hend,
          rr_loop_exit q (sumPos procs) procs cur t hend]
    · obtain ⟨hge, hlt, hb⟩ := rr_next_spec_aux cur procs _ rfl hend
      have hamt1 : 0 < min q (burstAt procs (rr_next cur procs).toNat) := lt_min hq hb
      have hamt2 : min q (burstAt procs (rr_next cur procs).toNat) ≤
          burstAt procs (rr_next cur procs).toNat := min_le_right _ _
      have hsum := sumPos_run_proc procs (rr_next cur procs)
        (min q (burstAt procs (rr_next cur procs).toNat)) hge (by omega) hb hamt1
      rw [min_eq_left hamt2] at hsum
      cases fuel with
      | zero => omega
      | succ fuel =>
        rw [rr_loop_step q fuel procs cur t hend hb,
          rr_loop_step q (sumPos procs) procs cur t hend hb]
        have h1 : sumPos (run_proc procs (rr_next cur procs)
            (min q (burstAt procs (rr_next cur procs).toNat))) ≤ n := by omega
        rw [ihn _ h1 fuel _ _ (by omega), ihn _ h1 (sumPos procs) _ _ (by omega)]

lemma toNat_natCast (n : Nat) : ((n : Int)).toNat = n := rfl

lemma rr_run_spec (procs : List Pcb) (q : Int) (hq : 0 < q) (hne : procs.length ≠ 0) :
    (rr_run procs q).1.length = procs.length ∧
    (∀ k, burstAt (rr_run procs q).1 k ≤ 0) ∧
    (∀ k, burstAt procs k ≤ 0 → pcbAt (rr_run procs q).1 k = pcbAt procs k) ∧
    (∀ k, 0 ≤ burstAt procs k → 0 ≤ burstAt (rr_run procs q).1 k) ∧
    (rr_run procs q).2 = (sumPos procs : Int) := by
  unfold rr_run
  rw [if_neg (by omega)]
  obtain ⟨g1, g2, g3, g4, g5⟩ := rr_loop_spec q hq (sumPos procs + 1) procs (-1) 0 (le_refl _)
  refine ⟨g1, g2, g3, g4, ?_⟩
  rw [g5]
  ring

lemma rr_run_preserves_nonpos (procs : List Pcb) (q : Int) (k : Nat)
    (hk : burstAt procs k ≤ 0) : pcbAt (rr_run procs q).1 k = pcbAt procs k := by
  unfold rr_run
  by_cases hg : procs.length = 0 ∨ q ≤ 0
  · rw [if_pos hg]
  · rw [if_neg hg]
    push_neg at hg
    obtain ⟨_, _, g3, _, _⟩ :=
      rr_loop_spec q (by omega) (sumPos procs + 1) procs (-1) 0 (le_refl _)
    exact g3 k hk

/-! ### Generic preservation along the FCFS loop -/

lemma fcfs_go_preserves_nonpos :
    ∀ (m j : Nat) (ps : List Pcb) (t : Int) (k : Nat), burstAt ps k ≤ 0 →
      pcbAt (fcfs_go m j ps t).1 k = pcbAt ps k := by
  intro m
  induction m with
  | zero =>
    intro j ps t k hk
    rfl
  | succ m ih =>
    intro j ps t k hk
    by_cases hb : burstAt ps j ≤ 0
    · have hred : fcfs_go (m + 1) j ps t = fcfs_go m (j + 1) ps t := by
        conv_lhs => unfold fcfs_go
        rw [if_pos hb]
      rw [hred]
      exact ih (j + 1) ps t k hk
    · have hred : fcfs_go (m + 1) j ps t =
          fcfs_go m (j + 1) (run_proc ps (j : Int) (burstAt ps j)) (t + burstAt ps j) := by
        conv_lhs => unfold fcfs_go
        rw [if_neg hb]
      rw [hred]
      have h1 := run_proc_preserves_nonpos ps (j : Int) (burstAt ps j) k hk
      have h2 := burstAt_run_proc_preserves_nonpos ps (j : Int) (burstAt ps j) k hk
      rw [ih (j + 1) _ _ k h2, h1]

lemma fcfs_run_preserves_nonpos (procs : List Pcb) (k : Nat)
    (hk : burstAt procs k ≤ 0) : pcbAt (fcfs_run procs).1 k = pcbAt procs k := by
  unfold fcfs_run
  by_cases hg : procs.length = 0
  · rw [if_pos hg]
  · rw [if_neg hg]
    exact fcfs_go_preserves_nonpos procs.length 0 procs 0 k hk

/-! ### The FCFS staging invariant -/

lemma pcb_ext (a b : Pcb) (h1 : a.pid = b.pid) (h2 : a.burst_left = b.burst_left)
    (h3 : a.wait = b.wait) : a = b := by
  cases a
  cases b
  rw [Pcb.mk.injEq]
  exact ⟨h1, h2, h3⟩

@[simp] lemma prefixPosSum_zero (bursts : List Int) : prefixPosSum bursts 0 = 0 := rfl

lemma prefixPosSum_succ (bursts : List Int) (m : Nat) :
    prefixPosSum bursts (m + 1) =
      prefixPosSum bursts m + (if 0 < intAt bursts m then intAt bursts m else 0) := rfl

lemma mkStage_pid (bursts : List Int) (j k : Nat) : (mkStage bursts j k).pid = (k : Int) := rfl

lemma mkStage_burst (bursts : List Int) (j k : Nat) :
    (mkStage bursts j k).burst_left =
      if k < j ∧ 0 < intAt bursts k then 0 else intAt bursts k := rfl

lemma mkStage_wait (bursts : List Int) (j k : Nat) :
    (mkStage bursts j k).wait =
      if 0 < intAt bursts k then prefixPosSum bursts (min k j) else 0 := rfl

lemma stepPcb_pid (used : Int) (c i : Nat) (p : Pcb) : (stepPcb used c i p).pid = p.pid := by
  unfold stepPcb
  split_ifs <;> rfl

lemma stepPcb_burst_self (used : Int) (c i : Nat) (p : Pcb) (h : i = c) :
    (stepPcb used c i p).burst_left =
      if p.burst_left - used < 0 then 0 else p.burst_left - used := by
  unfold stepPcb
  rw [if_pos h]

lemma stepPcb_wait_self (used : Int) (c i : Nat) (p : Pcb) (h : i = c) :
    (stepPcb used c i p).wait = p.wait := by
  unfold stepPcb
  rw [if_pos h]

lemma stepPcb_wait_other (used : Int) (c i : Nat) (p : Pcb) (h : i ≠ c) :
    (stepPcb used c i p).wait =
      if 0 < p.burst_left then p.wait + used else p.wait := by
  unfold stepPcb
  rw [if_neg h]
  split_ifs <;> rfl

lemma init_go_length : ∀ (bs : List Int) (s : Nat), (init_go s bs).length = bs.length := by
  intro bs
  induction bs with
  | nil => intro s; rfl
  | cons b bs ih => intro s; simp [init_go, ih]

lemma pcbAt_init_go : ∀ (bs : List Int) (s k : Nat),
    pcbAt (init_go s bs) k =
      if k < bs.length then
        { pid := ((s + k : Nat) : Int), burst_left := intAt bs k, wait := 0 }
      else default := by
  intro bs
  induction bs with
  | nil => intro s k; simp [init_go]
  | cons b bs ih =>
    intro s k
    cases k with
    | zero =>
      show ({ pid := (s : Int), burst_left := b, wait := 0 } : Pcb) = _
      rw [if_pos (by simp)]
      have h1 : s + 0 = s := rfl
      rw [h1]
      rfl
    | succ k =>
      show pcbAt (init_go (s + 1) bs) k = _
      rw [ih (s + 1) k]
      have h2 : s + 1 + k = s + (k + 1) := by omega
      rw [h2]
      simp only [List.length_cons, Nat.succ_lt_succ_iff]
      rfl

lemma pcbAt_init_mkStage (bursts : List Int) (k : Nat) (hk : k < bursts.length) :
    pcbAt (init_go 0 bursts) k = mkStage bursts 0 k := by
  rw [pcbAt_init_go, if_pos hk]
  apply pcb_ext
  · rw [mkStage_pid]
    show ((0 + k : Nat) : Int) = (k : Int)
    omega
  · rw [mkStage_burst, if_neg (fun h => absurd h.1 (by omega))]
  · rw [mkStage_wait, Nat.min_zero, prefixPosSum_zero]
    show (0 : Int) = _
    split_ifs <;> rfl

lemma mkStage_succ_nonpos (bursts : List Int) (j : Nat) (hj : intAt bursts j ≤ 0) (k : Nat) :
    mkStage bursts (j + 1) k = mkStage bursts j k := by
  have hpps : prefixPosSum bursts (j + 1) = prefixPosSum bursts j := by
    rw [prefixPosSum_succ, if_neg (by omega)]
    ring
  apply pcb_ext
  · rw [mkStage_pid, mkStage_pid]
  · rw [mkStage_burst, mkStage_burst]
    by_cases h1 : k < j ∧ 0 < intAt bursts k
    · rw [if_pos ⟨by omega, h1.2⟩, if_pos h1]
    · have h2 : ¬(k < j + 1 ∧ 0 < intAt bursts k) := by
        intro h
        apply h1
        refine ⟨?_, h.2⟩
        rcases Nat.lt_succ_iff_lt_or_eq.mp h.1 with h3 | h3
        · exact h3
        · exfalso
          rw [h3] at h
          omega
      rw [if_neg h2, if_neg h1]
  · rw [mkStage_wait, mkStage_wait]
    by_cases hbk : 0 < intAt bursts k
    · rw [if_pos hbk, if_pos hbk]
      rcases le_or_lt k j with h | h
      · rw [min_eq_left (by omega), min_eq_left h]
      · rw [min_eq_right (by omega), min_eq_right (by omega), hpps]
    · rw [if_neg hbk, if_neg hbk]

lemma stepPcb_mkStage (bursts : List Int) (j : Nat) (hbj : 0 < intAt bursts j) (k : Nat) :
    stepPcb (intAt bursts j) j k (mkStage bursts j k) = mkStage bursts (j + 1) k := by
  have hpps : prefixPosSum bursts (j + 1) = prefixPosSum bursts j + intAt bursts j := by
    rw [prefixPosSum_succ, if_pos hbj]
  apply pcb_ext
  · rw [stepPcb_pid, mkStage_pid, mkStage_pid]
  · by_cases hkj : k = j
    · subst hkj
      have hin : (mkStage bursts k k).burst_left = intAt bursts k := by
        rw [mkStage_burst, if_neg (fun h => absurd h.1 (by omega))]
      have hout : (mkStage bursts (k + 1) k).burst_left = 0 := by
        rw [mkStage_burst, if_pos ⟨by omega, hbj⟩]
      rw [stepPcb_burst_self _ _ _ _ rfl, hin, hout]
      split_ifs <;> omega
    · rw [stepPcb_burst_other _ _ _ _ hkj, mkStage_burst, mkStage_burst]
      by_cases h1 : k < j ∧ 0 < intAt bursts k
      · rw [if_pos h1, if_pos ⟨by omega, h1.2⟩]
      · have h2 : ¬(k < j + 1 ∧ 0 < intAt bursts k) := by
          intro h
          exact h1 ⟨by omega, h.2⟩
        rw [if_neg h1, if_neg h2]
  · by_cases hkj : k = j
    · subst hkj
      rw [stepPcb_wait_self _ _ _ _ rfl, mkStage_wait, mkStage_wait]
      rw [Nat.min_self, min_eq_left (by omega)]
    · rw [stepPcb_wait_other _ _ _ _ hkj]
      by_cases hbk : 0 < intAt bursts k
      · by_cases hlt : k < j
        · have hb0 : (mkStage bursts j k).burst_left = 0 := by
            rw [mkStage_burst, if_pos ⟨hlt, hbk⟩]
          rw [hb0, if_neg (by omega), mkStage_wait, mkStage_wait,
            if_pos hbk, if_pos hbk, min_eq_left (by omega), min_eq_left (by omega)]
        · have hb0 : (mkStage bursts j k).burst_left = intAt bursts k := by
            rw [mkStage_burst, if_neg (fun h => hlt h.1)]
          rw [hb0, if_pos hbk, mkStage_wait, mkStage_wait, if_pos hbk, if_pos hbk,
            min_eq_right (by omega), min_eq_right (by omega), hpps]
      · have hb0 : (mkStage bursts j k).burst_left = intAt bursts k := by
          rw [mkStage_burst, if_neg (fun h => hbk h.2)]
        rw [hb0, if_neg hbk, mkStage_wait, mkStage_wait, if_neg hbk, if_neg hbk]

lemma fcfs_go_spec (bursts : List Int) :
    ∀ (m j : Nat) (ps : List Pcb) (t : Int),
      ps.length = bursts.length → j + m = bursts.length →
      (∀ k, k < bursts.length → pcbAt ps k = mkStage bursts j k) →
      (fcfs_go m j ps t).1.length = bursts.length ∧
      (∀ k, k < bursts.length → pcbAt (fcfs_go m j ps t).1 k = mkStage bursts (j + m) k) ∧
      (fcfs_go m j ps t).2 = t + (prefixPosSum bursts (j + m) - prefixPosSum bursts j) := by
  intro m
  induction m with
  | zero =>
    intro j ps t hlen hjm hinv
    refine ⟨hlen, hinv, ?_⟩
    show t = t + (prefixPosSum bursts j - prefixPosSum bursts j)
    ring
  | succ m ih =>
    intro j ps t hlen hjm hinv
    have hj : j < bursts.length := by omega
    have hbj : burstAt ps j = intAt bursts j := by
      unfold burstAt
      rw [hinv j hj, mkStage_burst, if_neg (fun h => absurd h.1 (by omega))]
    by_cases hneg : intAt bursts j ≤ 0
    · have hred : fcfs_go (m + 1) j ps t = fcfs_go m (j + 1) ps t := by
        conv_lhs => unfold fcfs_go
        rw [if_pos (by rw [hbj]; exact hneg)]
      rw [hred]
      have hinv2 : ∀ k, k < bursts.length → pcbAt ps k = mkStage bursts (j + 1) k := by
        intro k hk
        rw [hinv k hk, mkStage_succ_nonpos bursts j hneg k]
      obtain ⟨g1, g2, g3⟩ := ih (j + 1) ps t hlen (by omega) hinv2
      have heq : j + 1 + m = j + (m + 1) := by omega
      refine ⟨g1, ?_, ?_⟩
      · intro k hk
        rw [← heq]
        exact g2 k hk
      · rw [g3, ← heq]
        have h1 : prefixPosSum bursts (j + 1) = prefixPosSum bursts j := by
          rw [prefixPosSum_succ, if_neg (by omega)]
          ring
        rw [h1]
    · push_neg at hneg
      have hred : fcfs_go (m + 1) j ps t =
          fcfs_go m (j + 1) (run_proc ps (j : Int) (burstAt ps j)) (t + burstAt ps j) := by
        conv_lhs => unfold fcfs_go
        rw [if_neg (by rw [hbj]; omega)]
      rw [hred]
      have hrp : ∀ k, k < bursts.length →
          pcbAt (run_proc ps (j : Int) (burstAt ps j)) k = mkStage bursts (j + 1) k := by
        intro k hk
        rw [pcbAt_run_proc ps (j : Int) (burstAt ps j) (by omega) (by omega)
          (by rw [toNat_natCast, hbj]; omega) (by rw [hbj]; omega) k]
        rw [if_pos (show k < ps.length by omega)]
        rw [toNat_natCast, hbj, min_self, hinv k hk]
        exact stepPcb_mkStage bursts j hneg k
      have hlen2 : (run_proc ps (j : Int) (burstAt ps j)).length = bursts.length := by
        rw [run_proc_length, hlen]
      obtain ⟨g1, g2, g3⟩ := ih (j + 1) (run_proc ps (j : Int) (burstAt ps j))
        (t + burstAt ps j) hlen2 (by omega) hrp
      have heq : j + 1 + m = j + (m + 1) := by omega
      refine ⟨g1, ?_, ?_⟩
      · intro k hk
        rw [← heq]
        exact g2 k hk
      · rw [g3, ← heq, hbj]
        have hpps : prefixPosSum bursts (j + 1) = prefixPosSum bursts j + intAt bursts j := by
          rw [prefixPosSum_succ, if_pos hneg]
        rw [hpps]
        ring

lemma fcfs_run_spec (bursts : List Int) (hne : bursts.length ≠ 0) :
    (fcfs_run (init_go 0 bursts)).1.length = bursts.length ∧
    (∀ k, k < bursts.length →
      pcbAt (fcfs_run (init_go 0 bursts)).1 k = mkStage bursts bursts.length k) ∧
    (fcfs_run (init_go 0 bursts)).2 = prefixPosSum bursts bursts.length := by
  unfold fcfs_run
  rw [init_go_length, if_neg hne]
  obtain ⟨g1, g2, g3⟩ := fcfs_go_spec bursts bursts.length 0 (init_go 0 bursts) 0
    (init_go_length _ _) (by omega) (fun k hk => pcbAt_init_mkStage bursts k hk)
  simp only [Nat.zero_add] at g2 g3
  refine ⟨g1, g2, ?_⟩
  rw [g3, prefixPosSum_zero]
  ring

/-! ### Initial tables and burst sums -/

@[simp] lemma intAt_cons_zero (b : Int) (bs : List Int) : intAt (b :: bs) 0 = b := rfl

@[simp] lemma intAt_cons_succ (b : Int) (bs : List Int) (k : Nat) :
    intAt (b :: bs) (k + 1) = intAt bs k := rfl

lemma intAt_mem : ∀ (bs : List Int) (k : Nat), k < bs.length → intAt bs k ∈ bs := by
  intro bs
  induction bs with
  | nil =>
    intro k hk
    simp at hk
  | cons b bs ih =>
    intro k hk
    cases k with
    | zero => exact List.mem_cons_self b bs
    | succ k => exact List.mem_cons_of_mem b (ih k (by simpa using hk))

lemma burstAt_init_go (bs : List Int) (s k : Nat) (hk : k < bs.length) :
    burstAt (init_go s bs) k = intAt bs k := by
  unfold burstAt
  rw [pcbAt_init_go, if_pos hk]

lemma init_procs_some (bursts : List Int) (procs : List Pcb)
    (h : init_procs bursts = some procs) :
    bursts.length ≠ 0 ∧ procs = init_go 0 bursts := by
  unfold init_procs at h
  by_cases hb : bursts.length = 0
  · rw [if_pos hb] at h
    cases h
  · rw [if_neg hb] at h
    exact ⟨hb, (Option.some.inj h).symm⟩

lemma sumPos_init_go : ∀ (bs : List Int) (s : Nat), (∀ b ∈ bs, 0 ≤ b) →
    (sumPos (init_go s bs) : Int) = sumInt bs := by
  intro bs
  induction bs with
  | nil =>
    intro s _
    rfl
  | cons b bs ih =>
    intro s h
    show ((b.toNat + sumPos (init_go (s + 1) bs) : Nat) : Int) = b + sumInt bs
    have h1 := ih (s + 1) (fun x hx => h x (List.mem_cons_of_mem b hx))
    have h2 : 0 ≤ b := h b (List.mem_cons_self b bs)
    omega

lemma prefixPosSum_cons (b : Int) (bs : List Int) :
    ∀ m, prefixPosSum (b :: bs) (m + 1) = (if 0 < b then b else 0) + prefixPosSum bs m := by
  intro m
  induction m with
  | zero =>
    rw [prefixPosSum_succ, prefixPosSum_zero, prefixPosSum_zero, intAt_cons_zero]
    ring
  | succ m ih =>
    rw [prefixPosSum_succ, ih, prefixPosSum_succ, intAt_cons_succ]
    ring

lemma prefixPosSum_len_eq_sumInt : ∀ (bs : List Int), (∀ b ∈ bs, 0 ≤ b) →
    prefixPosSum bs bs.length = sumInt bs := by
  intro bs
  induction bs with
  | nil =>
    intro _
    rfl
  | cons b bs ih =>
    intro h
    show prefixPosSum (b :: bs) (bs.length + 1) = b + sumInt bs
    rw [prefixPosSum_cons, ih (fun x hx => h x (List.mem_cons_of_mem b hx))]
    have h2 : 0 ≤ b := h b (List.mem_cons_self b bs)
    split_ifs <;> omega

lemma anyRunnable_ne_false (ps : List Pcb) (k : Nat) (hk : k < ps.length)
    (hb : 0 < burstAt ps k) : ¬ (anyRunnable ps = false) := by
  intro h
  have := (anyRunnable_eq_false_iff ps).mp h k
  omega

/-! ### Claim theorems -/

lemma burstAt_def (ps : List Pcb) (k : Nat) : burstAt ps k = (pcbAt ps k).burst_left := rfl

/-- C4: on a valid call (in-range `current` whose remaining burst is positive,
`amount > 0`) `run_proc` uses `used = min(amount, remaining)`: it decrements
the current burst by `used` (staying nonnegative), leaves the current pid and
wait alone, adds `used` to the wait of exactly those other in-range indices
whose `burst_left` is positive, and leaves every other entry unchanged. -/
theorem run_proc_step_characterisation (procs : List Pcb) (current amount : Int)
    (hc0 : 0 ≤ current) (hcl : current < (procs.length : Int))
    (hb : 0 < burstAt procs current.toNat) (ha : 0 < amount) :
    (run_proc procs current amount).length = procs.length ∧
    burstAt (run_proc procs current amount) current.toNat =
      burstAt procs current.toNat - min amount (burstAt procs current.toNat) ∧
    0 ≤ burstAt (run_proc procs current amount) current.toNat ∧
    (pcbAt (run_proc procs current amount) current.toNat).pid =
      (pcbAt procs current.toNat).pid ∧
    (pcbAt (run_proc procs current amount) current.toNat).wait =
      (pcbAt procs current.toNat).wait ∧
    (∀ i, i < procs.length → i ≠ current.toNat → 0 < burstAt procs i →
      pcbAt (run_proc procs current amount) i =
        { pcbAt procs i with
            wait := (pcbAt procs i).wait + min amount (burstAt procs current.toNat) }) ∧
    (∀ i, i < procs.length → i ≠ current.toNat → burstAt procs i ≤ 0 →
      pcbAt (run_proc procs current amount) i = pcbAt procs i) := by
  have hcur : current.toNat < procs.length := by omega
  have hple := pcbAt_run_proc procs current amount hc0 hcl hb ha
  have hcurval : pcbAt (run_proc procs current amount) current.toNat =
      stepPcb (min amount (burstAt procs current.toNat)) current.toNat current.toNat
        (pcbAt procs current.toNat) := by
    rw [hple current.toNat, if_pos hcur]
  refine ⟨run_proc_length procs current amount, ?_, ?_, ?_, ?_, ?_, ?_⟩
  · rw [burstAt_def, hcurval, stepPcb_burst_self _ _ _ _ rfl]
    have hbr : (pcbAt procs current.toNat).burst_left = burstAt procs current.toNat := rfl
    rw [hbr]
    have hm := min_le_right amount (burstAt procs current.toNat)
    rw [if_neg (by omega)]
  · rw [burstAt_def, hcurval]
    exact stepPcb_burst_nonneg _ _ _ _ hb.le
  · rw [hcurval, stepPcb_pid]
  · rw [hcurval, stepPcb_wait_self _ _ _ _ rfl]
  · intro i hi hine hbi
    have hval : pcbAt (run_proc procs current amount) i =
        stepPcb (min amount (burstAt procs current.toNat)) current.toNat i
          (pcbAt procs i) := by
      rw [hple i, if_pos hi]
    rw [hval]
    unfold stepPcb
    rw [if_neg hine, if_pos (show 0 < (pcbAt procs i).burst_left from hbi)]
    try rfl
  · intro i hi hine hbi
    have hval : pcbAt (run_proc procs current amount) i =
        stepPcb (min amount (burstAt procs current.toNat)) current.toNat i
          (pcbAt procs i) := by
      rw [hple i, if_pos hi]
    rw [hval]
    exact stepPcb_nonpos _ _ _ _ hine hbi

/-- Witness for C4 at the concrete table [(0,5,0), (1,3,0)], current 0, amount 2. -/
theorem run_proc_step_characterisation_witness :
    burstAt (run_proc [⟨0, 5, 0⟩, ⟨1, 3, 0⟩] 0 2) 0 =
      burstAt [(⟨0, 5, 0⟩ : Pcb), ⟨1, 3, 0⟩] 0 -
        min 2 (burstAt [(⟨0, 5, 0⟩ : Pcb), ⟨1, 3, 0⟩] 0) ∧
    pcbAt (run_proc [⟨0, 5, 0⟩, ⟨1, 3, 0⟩] 0 2) 1 =
      { pcbAt [(⟨0, 5, 0⟩ : Pcb), ⟨1, 3, 0⟩] 1 with
          wait := (pcbAt [(⟨0, 5, 0⟩ : Pcb), ⟨1, 3, 0⟩] 1).wait +
            min 2 (burstAt [(⟨0, 5, 0⟩ : Pcb), ⟨1, 3, 0⟩] 0) } := by
  obtain ⟨h1, h2, h3, h4, h5, h6, h7⟩ :=
    run_proc_step_characterisation [⟨0, 5, 0⟩, ⟨1, 3, 0⟩] 0 2
      (by decide) (by decide) (by decide) (by decide)
  exact ⟨h2, h6 1 (by decide) (by decide) (by decide)⟩

/-- C6 counterexample: on the one-entry table with `burst_left = -1`,
`rr_next` returns -1 although not every `burst_left` equals 0. -/
theorem rr_next_none_counterexample :
    rr_next 0 [{ pid := 0, burst_left := -1, wait := 0 }] = -1 ∧
    ¬ (∀ p ∈ [({ pid := 0, burst_left := -1, wait := 0 } : Pcb)], p.burst_left = 0) := by
  constructor
  · decide
  · decide

/-- C6 amended: `rr_next` returns -1 exactly when every process has
`burst_left <= 0` (not `= 0`: negative bursts also count as finished). -/
theorem rr_next_none_iff_all_nonpos (current : Int) (procs : List Pcb) :
    rr_next current procs = -1 ↔ ∀ p ∈ procs, p.burst_left ≤ 0 := by
  rw [rr_next_eq_neg_one_iff]
  constructor
  · intro h p hp
    obtain ⟨k, hk, hpk⟩ := (mem_iff_pcbAt procs p).mp hp
    have h2 := h k
    rw [burstAt_def, hpk] at h2
    exact h2
  · intro h k
    by_cases hk : k < procs.length
    · exact h (pcbAt procs k) ((mem_iff_pcbAt procs _).mpr ⟨k, hk, rfl⟩)
    · rw [burstAt_out_of_range procs k (by omega)]

/-- Witness for the amended C6 on a concrete all-finished table. -/
theorem rr_next_none_iff_all_nonpos_witness :
    rr_next 0 [({ pid := 0, burst_left := 0, wait := 4 } : Pcb)] = -1 :=
  (rr_next_none_iff_all_nonpos 0 _).mpr (by decide)

/-- C8: a productive `run_proc` call (the ones that advance time, by
`t = min(amount, remaining)`) decreases the burst sum by exactly `t`, and any
`run_proc` call keeps every nonnegative `burst_left` nonnegative. -/
theorem run_proc_sum_invariant :
    (∀ (procs : List Pcb) (current amount : Int) (k : Nat), 0 ≤ burstAt procs k →
      0 ≤ burstAt (run_proc procs current amount) k) ∧
    (∀ (procs : List Pcb) (current amount : Int), 0 ≤ current →
      current < (procs.length : Int) →
      0 < burstAt procs current.toNat → 0 < amount →
      sumBurst (run_proc procs current amount) =
        sumBurst procs - min amount (burstAt procs current.toNat)) :=
  ⟨run_proc_preserves_nonneg, sumBurst_run_proc⟩

/-- Witness for C8 at the concrete table [(0,5,0), (1,3,0)], current 0, amount 2. -/
theorem run_proc_sum_invariant_witness :
    0 ≤ burstAt (run_proc [⟨0, 5, 0⟩, ⟨1, 3, 0⟩] 0 2) 1 ∧
    sumBurst (run_proc [⟨0, 5, 0⟩, ⟨1, 3, 0⟩] 0 2) =
      sumBurst [(⟨0, 5, 0⟩ : Pcb), ⟨1, 3, 0⟩] -
        min 2 (burstAt [(⟨0, 5, 0⟩ : Pcb), ⟨1, 3, 0⟩] 0) :=
  ⟨run_proc_sum_invariant.1 [⟨0, 5, 0⟩, ⟨1, 3, 0⟩] 0 2 1 (by decide),
    run_proc_sum_invariant.2 [⟨0, 5, 0⟩, ⟨1, 3, 0⟩] 0 2
      (by decide) (by decide) (by decide) (by decide)⟩

/-- C9: invalid calls are silent no-ops: `run_proc` with an empty table,
out-of-range index or nonpositive amount returns the table unchanged, and
`rr_run` with an empty table or nonpositive quantum returns it unchanged with
total time 0. -/
theorem invalid_calls_noop :
    (∀ (procs : List Pcb) (current amount : Int),
      procs.length = 0 ∨ current < 0 ∨ (procs.length : Int) ≤ current ∨ amount ≤ 0 →
      run_proc procs current amount = procs) ∧
    (∀ (procs : List Pcb) (quantum : Int), procs.length = 0 ∨ quantum ≤ 0 →
      rr_run procs quantum = (procs, 0)) := by
  refine ⟨run_proc_noop, ?_⟩
  intro procs q h
  unfold rr_run
  rw [if_pos h]

/-- Witness for C9: out-of-range index and nonpositive quantum on a
concrete table. -/
theorem invalid_calls_noop_witness :
    run_proc [⟨0, 5, 0⟩] (-1) 3 = [(⟨0, 5, 0⟩ : Pcb)] ∧
    run_proc [⟨0, 5, 0⟩] 0 0 = [(⟨0, 5, 0⟩ : Pcb)] ∧
    rr_run [⟨0, 5, 0⟩] 0 = ([(⟨0, 5, 0⟩ : Pcb)], 0) :=
  ⟨invalid_calls_noop.1 [⟨0, 5, 0⟩] (-1) 3 (Or.inr (Or.inl (by decide))),
    invalid_calls_noop.1 [⟨0, 5, 0⟩] 0 0 (Or.inr (Or.inr (Or.inr (by decide)))),
    invalid_calls_noop.2 [⟨0, 5, 0⟩] 0 (Or.inr (by decide))⟩

/-- C10: an entry whose `burst_left` is already nonpositive is never mutated
again by `run_proc`, `fcfs_run` or `rr_run`; in particular a negative input
burst survives both schedulers unchanged (it is never decremented or clamped
to 0). -/
theorem finished_pcb_never_mutated :
    (∀ (procs : List Pcb) (current amount : Int) (k : Nat), burstAt procs k ≤ 0 →
      pcbAt (run_proc procs current amount) k = pcbAt procs k) ∧
    (∀ (procs : List Pcb) (k : Nat), burstAt procs k ≤ 0 →
      pcbAt (fcfs_run procs).1 k = pcbAt procs k) ∧
    (∀ (procs : List Pcb) (quantum : Int) (k : Nat), burstAt procs k ≤ 0 →
      pcbAt (rr_run procs quantum).1 k = pcbAt procs k) ∧
    (∀ (bursts : List Int) (k : Nat) (quantum : Int), k < bursts.length →
      intAt bursts k < 0 →
      burstAt (fcfs_run (init_go 0 bursts)).1 k = intAt bursts k ∧
      burstAt (rr_run (init_go 0 bursts) quantum).1 k = intAt bursts k) := by
  refine ⟨run_proc_preserves_nonpos, fcfs_run_preserves_nonpos, rr_run_preserves_nonpos, ?_⟩
  intro bursts k quantum hk hneg
  have hb : burstAt (init_go 0 bursts) k = intAt bursts k := burstAt_init_go bursts 0 k hk
  have hb0 : burstAt (init_go 0 bursts) k ≤ 0 := by omega
  constructor
  · rw [burstAt_def, fcfs_run_preserves_nonpos _ k hb0, ← burstAt_def, hb]
  · rw [burstAt_def, rr_run_preserves_nonpos _ quantum k hb0, ← burstAt_def, hb]

/-- Witness for C10 on the concrete table [(0,-2,0), (1,3,0)]. -/
theorem finished_pcb_never_mutated_witness :
    pcbAt (run_proc [⟨0, -2, 0⟩, ⟨1, 3, 0⟩] 1 2) 0 = pcbAt [(⟨0, -2, 0⟩ : Pcb), ⟨1, 3, 0⟩] 0 ∧
    pcbAt (fcfs_run [⟨0, -2, 0⟩, ⟨1, 3, 0⟩]).1 0 = pcbAt [(⟨0, -2, 0⟩ : Pcb), ⟨1, 3, 0⟩] 0 ∧
    pcbAt (rr_run [⟨0, -2, 0⟩, ⟨1, 3, 0⟩] 2).1 0 = pcbAt [(⟨0, -2, 0⟩ : Pcb), ⟨1, 3, 0⟩] 0 ∧
    burstAt (fcfs_run (init_go 0 [-2, 3])).1 0 = intAt [-2, 3] 0 :=
  ⟨finished_pcb_never_mutated.1 [⟨0, -2, 0⟩, ⟨1, 3, 0⟩] 1 2 0 (by decide),
    finished_pcb_never_mutated.2.1 [⟨0, -2, 0⟩, ⟨1, 3, 0⟩] 0 (by decide),
    finished_pcb_never_mutated.2.2.1 [⟨0, -2, 0⟩, ⟨1, 3, 0⟩] 2 0 (by decide),
    (finished_pcb_never_mutated.2.2.2 [-2, 3] 0 1 (by decide) (by decide)).1⟩

/-- C1 counterexample: for the non-empty burst sequence [-1] (freshly
constructed table), neither scheduler leaves every `burst_left` equal to 0:
the negative burst survives as -1. -/
theorem fcfs_rr_all_zero_counterexample :
    init_procs [-1] = some [{ pid := 0, burst_left := -1, wait := 0 }] ∧
    ¬ (∀ p ∈ (fcfs_run [{ pid := 0, burst_left := -1, wait := 0 }]).1, p.burst_left = 0) ∧
    ¬ (∀ p ∈ (rr_run [{ pid := 0, burst_left := -1, wait := 0 }] 1).1, p.burst_left = 0) := by
  refine ⟨by decide, by decide, by decide⟩

/-- C1 amended: for every non-empty sequence of NONNEGATIVE bursts, both
`fcfs_run` and `rr_run` (with `quantum > 0`) leave every `burst_left = 0`. -/
theorem fcfs_rr_complete_nonneg (bursts : List Int) (procs : List Pcb) (q : Int)
    (hnn : ∀ b ∈ bursts, 0 ≤ b) (hinit : init_procs bursts = some procs) (hq : 0 < q) :
    (∀ p ∈ (fcfs_run procs).1, p.burst_left = 0) ∧
    (∀ p ∈ (rr_run procs q).1, p.burst_left = 0) := by
  obtain ⟨hne, hps⟩ := init_procs_some bursts procs hinit
  subst hps
  constructor
  · obtain ⟨g1, g2, _⟩ := fcfs_run_spec bursts hne
    intro p hp
    obtain ⟨k, hk, hpk⟩ := (mem_iff_pcbAt _ p).mp hp
    rw [← hpk]
    have hk2 : k < bursts.length := by omega
    have hbk : 0 ≤ intAt bursts k := hnn _ (intAt_mem bursts k hk2)
    rw [g2 k hk2, mkStage_burst]
    split_ifs with h
    · rfl
    · omega
  · obtain ⟨g1, g2, g3, g4, g5⟩ :=
      rr_run_spec (init_go 0 bursts) q hq (by rw [init_go_length]; exact hne)
    intro p hp
    obtain ⟨k, hk, hpk⟩ := (mem_iff_pcbAt _ p).mp hp
    rw [← hpk]
    have hb1 : 0 ≤ burstAt (init_go 0 bursts) k := by
      by_cases hkl : k < bursts.length
      · rw [burstAt_init_go bursts 0 k hkl]
        exact hnn _ (intAt_mem bursts k hkl)
      · rw [burstAt_out_of_range _ k (by rw [init_go_length]; omega)]
    have h1 : burstAt (rr_run (init_go 0 bursts) q).1 k = 0 :=
      le_antisymm (g2 k) (g4 k hb1)
    exact h1

/-- Witness for the amended C1 at bursts [2, 1], quantum 1. -/
theorem fcfs_rr_complete_nonneg_witness :
    (∀ p ∈ (fcfs_run (init_go 0 [2, 1])).1, p.burst_left = 0) ∧
    (∀ p ∈ (rr_run (init_go 0 [2, 1]) 1).1, p.burst_left = 0) :=
  fcfs_rr_complete_nonneg [2, 1] (init_go 0 [2, 1]) 1 (by decide) rfl (by decide)

/-- C2 counterexample: for the non-empty burst sequence [-1], both schedulers
return total time 0, while the sum of the input bursts is -1. -/
theorem total_time_counterexample :
    init_procs [-1] = some [{ pid := 0, burst_left := -1, wait := 0 }] ∧
    (fcfs_run [{ pid := 0, burst_left := -1, wait := 0 }]).2 = 0 ∧
    (rr_run [{ pid := 0, burst_left := -1, wait := 0 }] 1).2 = 0 ∧
    (fcfs_run [{ pid := 0, burst_left := -1, wait := 0 }]).2 ≠ sumInt [-1] ∧
    (rr_run [{ pid := 0, burst_left := -1, wait := 0 }] 1).2 ≠ sumInt [-1] := by
  refine ⟨by decide, by decide, by decide, by decide, by decide⟩

/-- C2 amended: for every non-empty sequence of NONNEGATIVE bursts, the total
time returned by `fcfs_run` and by `rr_run` (with `quantum > 0`) equals the
sum of the input bursts. -/
theorem total_time_eq_sum_nonneg (bursts : List Int) (procs : List Pcb) (q : Int)
    (hnn : ∀ b ∈ bursts, 0 ≤ b) (hinit : init_procs bursts = some procs) (hq : 0 < q) :
    (fcfs_run procs).2 = sumInt bursts ∧ (rr_run procs q).2 = sumInt bursts := by
  obtain ⟨hne, hps⟩ := init_procs_some bursts procs hinit
  subst hps
  constructor
  · obtain ⟨_, _, g3⟩ := fcfs_run_spec bursts hne
    rw [g3]
    exact prefixPosSum_len_eq_sumInt bursts hnn
  · obtain ⟨_, _, _, _, g5⟩ :=
      rr_run_spec (init_go 0 bursts) q hq (by rw [init_go_length]; exact hne)
    rw [g5]
    exact sumPos_init_go bursts 0 hnn

/-- Witness for the amended C2 at bursts [5, 3, 8], quantum 4. -/
theorem total_time_eq_sum_nonneg_witness :
    (fcfs_run (init_go 0 [5, 3, 8])).2 = sumInt [5, 3, 8] ∧
    (rr_run (init_go 0 [5, 3, 8]) 4).2 = sumInt [5, 3, 8] :=
  total_time_eq_sum_nonneg [5, 3, 8] (init_go 0 [5, 3, 8]) 4 (by decide) rfl (by decide)

/-- C3 counterexample: on the freshly constructed table for bursts [5, 0],
process 1 never accrues wait (its burst is 0, so it is already finished), so
its final wait is 0 and not the claimed 5 (the positive burst before it). -/
theorem fcfs_wait_counterexample :
    init_procs [5, 0] = some (init_go 0 [5, 0]) ∧
    (pcbAt (fcfs_run (init_go 0 [5, 0])).1 1).wait = 0 ∧
    prefixPosSum [5, 0] 1 = 5 ∧
    (pcbAt (fcfs_run (init_go 0 [5, 0])).1 1).wait ≠ prefixPosSum [5, 0] 1 := by
  refine ⟨by decide, by decide, by decide, by decide⟩

/-- C3 amended: after `fcfs_run` on a freshly constructed table, a process
with positive burst waits exactly the sum of the positive bursts before it,
and a process with nonpositive burst keeps wait 0. -/
theorem fcfs_wait_characterisation (bursts : List Int) (procs : List Pcb)
    (hinit : init_procs bursts = some procs) (k : Nat) (hk : k < bursts.length) :
    (pcbAt (fcfs_run procs).1 k).wait =
      if 0 < intAt bursts k then prefixPosSum bursts k else 0 := by
  obtain ⟨hne, hps⟩ := init_procs_some bursts procs hinit
  subst hps
  obtain ⟨_, g2, _⟩ := fcfs_run_spec bursts hne
  rw [g2 k hk, mkStage_wait, min_eq_left (by omega)]

/-- Witness for the amended C3 at bursts [5, 3, 8] (waits 0, 5, 8). -/
theorem fcfs_wait_characterisation_witness :
    (pcbAt (fcfs_run (init_go 0 [5, 3, 8])).1 2).wait =
      if 0 < intAt [5, 3, 8] 2 then prefixPosSum [5, 3, 8] 2 else 0 :=
  fcfs_wait_characterisation [5, 3, 8] (init_go 0 [5, 3, 8]) rfl 2 (by decide)

/-- C7: with `quantum > 0` the RR loop terminates: its result is unchanged by
any fuel of at least `sumPos procs + 1` (the loop stabilises within that many
iterations), every iteration that performs work strictly decreases the total
remaining positive burst by its positive amount `min(quantum, remaining)`,
and after `rr_run` the selector reports that no runnable process remains. -/
theorem rr_termination (procs : List Pcb) (q : Int) (hq : 0 < q) :
    (∀ fuel, sumPos procs + 1 ≤ fuel → ∀ (cur t : Int),
      rr_loop q fuel procs cur t = rr_loop q (sumPos procs + 1) procs cur t) ∧
    (∀ (ps : List Pcb) (cur : Int), rr_next cur ps ≠ -1 →
      0 < min q (burstAt ps (rr_next cur ps).toNat) ∧
      sumPos (run_proc ps (rr_next cur ps) (min q (burstAt ps (rr_next cur ps).toNat))) +
        (min q (burstAt ps (rr_next cur ps).toNat)).toNat = sumPos ps) ∧
    (∀ cur : Int, rr_next cur (rr_run procs q).1 = -1) := by
  refine ⟨?_, ?_, ?_⟩
  · intro fuel hf cur t
    exact rr_loop_fuel_irrel q hq (sumPos procs) procs (le_refl _) fuel cur t hf
  · intro ps cur hne
    obtain ⟨hge, hlt, hb⟩ := rr_next_spec_aux cur ps _ rfl hne
    have hamt1 : 0 < min q (burstAt ps (rr_next cur ps).toNat) := lt_min hq hb
    have hamt2 := min_le_right q (burstAt ps (rr_next cur ps).toNat)
    have hsum := sumPos_run_proc ps (rr_next cur ps)
      (min q (burstAt ps (rr_next cur ps).toNat)) hge (by omega) hb hamt1
    rw [min_eq_left hamt2] at hsum
    exact ⟨hamt1, hsum⟩
  · intro cur
    by_cases hlen : procs.length = 0
    · have hrr : rr_run procs q = (procs, 0) := by
        unfold rr_run
        rw [if_pos (Or.inl hlen)]
      rw [hrr]
      rw [rr_next_eq_neg_one_iff]
      intro k
      rw [burstAt_out_of_range procs k (by omega)]
    · obtain ⟨_, g2, _, _, _⟩ := rr_run_spec procs q hq hlen
      rw [rr_next_eq_neg_one_iff]
      exact g2

/-- Witness for C7 at bursts [5, 3], quantum 2: fuel stability, one
productive step, and the terminal selector state. -/
theorem rr_termination_witness :
    rr_loop 2 20 (init_go 0 [5, 3]) (-1) 0 =
      rr_loop 2 (sumPos (init_go 0 [5, 3]) + 1) (init_go 0 [5, 3]) (-1) 0 ∧
    0 < min 2 (burstAt (init_go 0 [5, 3])
      (rr_next (-1) (init_go 0 [5, 3])).toNat) ∧
    rr_next 0 (rr_run (init_go 0 [5, 3]) 2).1 = -1 :=
  ⟨(rr_termination (init_go 0 [5, 3]) 2 (by decide)).1 20 (by decide) (-1) 0,
    ((rr_termination (init_go 0 [5, 3]) 2 (by decide)).2.1
      (init_go 0 [5, 3]) (-1) (by decide)).1,
    (rr_termination (init_go 0 [5, 3]) 2 (by decide)).2.2 0⟩

/-- C5: the `rr_next` selection rule.  For an in-range `previous` with some
OTHER runnable index, the result is runnable, differs from `previous`, and has
the least cyclic forward distance from `previous + 1` among runnable indices
other than `previous`; if only `previous` itself is runnable it is returned;
for an out-of-range `previous` (including the initial -1) the lowest runnable
index is returned; and every result other than -1 has `burst_left > 0`. -/
theorem rr_next_selection_rule (procs : List Pcb) (previous : Int) :
    (0 ≤ previous → previous < (procs.length : Int) →
      (∃ i, i < procs.length ∧ i ≠ previous.toNat ∧ 0 < burstAt procs i) →
      0 ≤ rr_next previous procs ∧
      (rr_next previous procs).toNat < procs.length ∧
      (rr_next previous procs).toNat ≠ previous.toNat ∧
      0 < burstAt procs (rr_next previous procs).toNat ∧
      (∀ i, i < procs.length → i ≠ previous.toNat → 0 < burstAt procs i →
        cdist procs.length (previous.toNat + 1) (rr_next previous procs).toNat ≤
          cdist procs.length (previous.toNat + 1) i)) ∧
    (0 ≤ previous → previous < (procs.length : Int) →
      (∀ i, i < procs.length → i ≠ previous.toNat → burstAt procs i ≤ 0) →
      0 < burstAt procs previous.toNat →
      rr_next previous procs = previous) ∧
    ((previous < 0 ∨ (procs.length : Int) ≤ previous) →
      (∃ i, i < procs.length ∧ 0 < burstAt procs i) →
      0 ≤ rr_next previous procs ∧
      (rr_next previous procs).toNat < procs.length ∧
      0 < burstAt procs (rr_next previous procs).toNat ∧
      (∀ i, i < (rr_next previous procs).toNat → burstAt procs i ≤ 0)) ∧
    (rr_next previous procs ≠ -1 →
      0 ≤ rr_next previous procs ∧
      (rr_next previous procs).toNat < procs.length ∧
      0 < burstAt procs (rr_next previous procs).toNat) := by
  refine ⟨?_, ?_, ?_, ?_⟩
  · rintro hge hlt ⟨i0, hi0l, hi0ne, hi0b⟩
    have hcur : previous.toNat < procs.length := by omega
    cases hsc : rr_scan procs previous.toNat with
    | none => exact absurd hsc (rr_scan_ne_none procs previous.toNat hcur i0 hi0l hi0ne hi0b)
    | some r =>
      have hnext : rr_next previous procs = (r : Int) := by
        unfold rr_next
        rw [if_neg (show ¬procs.length = 0 by omega),
          if_neg (anyRunnable_ne_false procs i0 hi0l hi0b),
          if_neg (show ¬(previous < 0 ∨ (procs.length : Int) ≤ previous) by omega)]
        simp only [hsc]
      obtain ⟨j, hj1, hj2, hj3, hj4⟩ := rr_scan_some procs previous.toNat r hsc
      have hrn : r < procs.length := by
        rw [hj2]
        exact Nat.mod_lt _ (by omega)
      have hcdr : cdist procs.length (previous.toNat + 1) r = j := by
        have h := cdist_add procs.length (previous.toNat + 1) j (by omega)
        rw [← hj2] at h
        exact h
      have hrne : r ≠ previous.toNat := by
        intro he
        rw [he, cdist_self_pred procs.length previous.toNat hcur] at hcdr
        omega
      rw [hnext, toNat_natCast]
      refine ⟨by omega, hrn, hrne, hj3, ?_⟩
      intro i hi hine hib
      have hdi : cdist procs.length (previous.toNat + 1) i < procs.length :=
        cdist_lt _ _ _ (by omega)
      have hdine : cdist procs.length (previous.toNat + 1) i ≠ procs.length - 1 :=
        cdist_ne_pred procs.length previous.toNat i hcur hi hine
      have hre : (previous.toNat + 1 + cdist procs.length (previous.toNat + 1) i) %
          procs.length = i := add_cdist _ _ _ hi
      rw [hcdr]
      by_contra hcon
      push_neg at hcon
      have h2 := hj4 _ hcon
      rw [hre] at h2
      omega
  · intro hge hlt hothers hprev
    have hcur : previous.toNat < procs.length := by omega
    cases hsc : rr_scan procs previous.toNat with
    | some i =>
      exfalso
      obtain ⟨j, hj1, hj2, hj3, _⟩ := rr_scan_some procs previous.toNat i hsc
      have hin : i < procs.length := by
        rw [hj2]
        exact Nat.mod_lt _ (by omega)
      have hcdr : cdist procs.length (previous.toNat + 1) i = j := by
        have h := cdist_add procs.length (previous.toNat + 1) j (by omega)
        rw [← hj2] at h
        exact h
      have hine : i ≠ previous.toNat := by
        intro he
        rw [he, cdist_self_pred procs.length previous.toNat hcur] at hcdr
        omega
      have := hothers i hin hine
      omega
    | none =>
      unfold rr_next
      rw [if_neg (show ¬procs.length = 0 by omega),
        if_neg (anyRunnable_ne_false procs previous.toNat hcur hprev),
        if_neg (show ¬(previous < 0 ∨ (procs.length : Int) ≤ previous) by omega)]
      simp only [hsc]
      rw [if_pos hprev]
  · rintro hout ⟨i0, hi0l, hb0⟩
    cases hfr : firstRunnable procs with
    | none => exact absurd hfr (firstRunnable_ne_none procs i0 hi0l hb0)
    | some i =>
      have hnext : rr_next previous procs = (i : Int) := by
        unfold rr_next
        rw [if_neg (show ¬procs.length = 0 by omega),
          if_neg (anyRunnable_ne_false procs i0 hi0l hb0), if_pos hout]
        simp only [hfr]
      obtain ⟨h1, h2, h3⟩ := firstRunnable_some procs i hfr
      rw [hnext, toNat_natCast]
      exact ⟨by omega, h1, h2, h3⟩
  · exact rr_next_spec_aux previous procs _ rfl

/-- Witness for C5: the out-of-range rule at previous = 5 and the
sole-runnable rule at previous = 1, on the table [(0,0,0), (1,2,0)]. -/
theorem rr_next_selection_rule_witness :
    ((0 : Int) ≤ rr_next 5 [(⟨0, 0, 0⟩ : Pcb), ⟨1, 2, 0⟩] ∧
      (rr_next 5 [(⟨0, 0, 0⟩ : Pcb), ⟨1, 2, 0⟩]).toNat <
        [(⟨0, 0, 0⟩ : Pcb), ⟨1, 2, 0⟩].length ∧
      0 < burstAt [(⟨0, 0, 0⟩ : Pcb), ⟨1, 2, 0⟩]
        (rr_next 5 [(⟨0, 0, 0⟩ : Pcb), ⟨1, 2, 0⟩]).toNat ∧
      (∀ i, i < (rr_next 5 [(⟨0, 0, 0⟩ : Pcb), ⟨1, 2, 0⟩]).toNat →
        burstAt [(⟨0, 0, 0⟩ : Pcb), ⟨1, 2, 0⟩] i ≤ 0)) ∧
    rr_next 1 [(⟨0, 0, 0⟩ : Pcb), ⟨1, 2, 0⟩] = 1 :=
  ⟨(rr_next_selection_rule [⟨0, 0, 0⟩, ⟨1, 2, 0⟩] 5).2.2.1 (by decide)
      ⟨1, by decide, by decide⟩,
    (rr_next_selection_rule [⟨0, 0, 0⟩, ⟨1, 2, 0⟩] 1).2.1 (by decide) (by decide)
      (by decide) (by decide)⟩
